import Mathlib

/-!
Verification of the in-memory CRUD item store of `src/app/main.py`
(secure-docker-ci-pipeline).

The Python service keeps a single dictionary `items_db : Dict[int, Item]`
and exposes handlers `get_item`, `create_item`, `update_item`,
`delete_item` and `health_check`.  We embed the store as an association
list over `Int` keys (a Python dict: lookup by key, in-place replacement
of the value at an existing key, insertion at the end for a fresh key,
removal of the entry for a key).  Python floats (`price`, `tax`) are
modelled as rationals: the store never performs arithmetic on them, it
only stores and compares records.  Each handler is a pure function from
the store and the request to the new store and the HTTP outcome; a
stateless handler returns the store unchanged.  `os.getenv` is modelled
by passing the environment variable as an `Option String`.
-/

/-- The `Item` pydantic model: `name: str`, `description: Optional[str]`,
`price: float`, `tax: Optional[float]`. -/
structure Item where
  name : String
  description : Option String
  price : Rat
  tax : Option Rat
deriving DecidableEq, Repr

/-- The `HealthResponse` pydantic model. -/
structure HealthResponse where
  status : String
  version : String
  environment : String
deriving DecidableEq, Repr

/-- An `HTTPException(status_code, detail)` as raised by the handlers. -/
structure HTTPException where
  status_code : Nat
  detail : String
deriving DecidableEq, Repr

/-- The exception every handler raises for a missing id:
`HTTPException(status_code=404, detail="Item not found")`. -/
def itemNotFound : HTTPException := ⟨404, "Item not found"⟩

/-- The state of `items_db`: a finite mapping from integer ids to items,
as an association list in insertion order. -/
abbrev Store := List (Int × Item)

/-- The key list `items_db.keys()` (in insertion order). -/
def Store.keys (s : Store) : List Int := s.map (fun p => p.1)

/-- Python `item_id in items_db`. -/
def Store.containsKey : Store → Int → Bool
  | [], _ => false
  | (k, _) :: s, id => if k = id then true else Store.containsKey s id

/-- Python `items_db[item_id]` as a partial lookup: the value stored at
`item_id`, if any. -/
def Store.get? : Store → Int → Option Item
  | [], _ => none
  | (k, v) :: s, id => if k = id then some v else Store.get? s id

/-- Python `items_db[item_id] = item`: replace the value in place when the
key is present, otherwise append a new entry. -/
def Store.set : Store → Int → Item → Store
  | [], id, v => [(id, v)]
  | (k, w) :: s, id, v =>
    if k = id then (k, v) :: s else (k, w) :: Store.set s id v

/-- Python `del items_db[item_id]`: drop the entry with the given key. -/
def Store.erase : Store → Int → Store
  | [], _ => []
  | (k, w) :: s, id =>
    if k = id then Store.erase s id else (k, w) :: Store.erase s id

/-- Python `max(l, default=0)` for a list of integers: the maximum element,
or `0` when the list is empty. -/
def maxOrZero : List Int → Int
  | [] => 0
  | k :: ks => ks.foldl max k

/-- `GET /items/{item_id}`: 404 when the id is absent, otherwise the stored
item.  The handler never mutates the store, so it returns it unchanged. -/
def get_item (s : Store) (item_id : Int) : Store × Except HTTPException Item :=
  match Store.get? s item_id with
  | some it => (s, Except.ok it)
  | none => (s, Except.error itemNotFound)

/-- `POST /items`: `new_id = max(items_db.keys(), default=0) + 1`, then
`items_db[new_id] = item`, then return the item (HTTP 201).  The assigned
id is exposed as the second component. -/
def create_item (s : Store) (item : Item) : Store × Int × Item :=
  let new_id := maxOrZero (Store.keys s) + 1
  (Store.set s new_id item, new_id, item)

/-- `PUT /items/{item_id}`: 404 when the id is absent, otherwise replace
the record wholesale and return the new item. -/
def update_item (s : Store) (item_id : Int) (item : Item) :
    Store × Except HTTPException Item :=
  if Store.containsKey s item_id = false then (s, Except.error itemNotFound)
  else (Store.set s item_id item, Except.ok item)

/-- `DELETE /items/{item_id}`: 404 when the id is absent, otherwise remove
the entry and return the confirmation message. -/
def delete_item (s : Store) (item_id : Int) : Store × Except HTTPException String :=
  if Store.containsKey s item_id = false then (s, Except.error itemNotFound)
  else (Store.erase s item_id, Except.ok "Item deleted successfully")

/-- `GET /health`: static status and version, environment from
`os.getenv("ENVIRONMENT", "production")`; the process environment variable
is passed in as an `Option String`. -/
def health_check (environment_var : Option String) : HealthResponse :=
  ⟨"healthy", "1.0.0", environment_var.getD "production"⟩

/-- A mutating request against the items API. -/
inductive Op where
  | create (item : Item)
  | update (id : Int) (item : Item)
  | delete (id : Int)
deriving DecidableEq, Repr

/-- The store resulting from one request (its HTTP outcome discarded). -/
def applyOp (s : Store) : Op → Store
  | Op.create it => (create_item s it).1
  | Op.update id it => (update_item s id it).1
  | Op.delete id => (delete_item s id).1

/-- Run a sequence of mutating requests against a store. -/
def runOps (s : Store) (ops : List Op) : Store := ops.foldl applyOp s

/-- Run a sequence of `POST /items` requests, collecting the assigned ids. -/
def runCreates : Store → List Item → Store × List Int
  | s, [] => (s, [])
  | s, it :: its =>
    let r := create_item s it
    let rest := runCreates r.1 its
    (rest.1, r.2.1 :: rest.2)

/-!  Unfolding lemmas for the store primitives. -/

@[simp] theorem maxOrZero_nil : maxOrZero [] = 0 := rfl

@[simp] theorem maxOrZero_cons (k : Int) (ks : List Int) :
    maxOrZero (k :: ks) = ks.foldl max k := rfl

@[simp] theorem keys_nil : Store.keys [] = [] := rfl

@[simp] theorem keys_cons (k : Int) (v : Item) (s : Store) :
    Store.keys ((k, v) :: s) = k :: Store.keys s := rfl

@[simp] theorem containsKey_nil (id : Int) :
    Store.containsKey [] id = false := rfl

theorem containsKey_cons (k : Int) (v : Item) (s : Store) (id : Int) :
    Store.containsKey ((k, v) :: s) id =
      if k = id then true else Store.containsKey s id := rfl

@[simp] theorem get?_nil (id : Int) : Store.get? [] id = none := rfl

theorem get?_cons (k : Int) (v : Item) (s : Store) (id : Int) :
    Store.get? ((k, v) :: s) id =
      if k = id then some v else Store.get? s id := rfl

theorem set_nil (id : Int) (v : Item) : Store.set [] id v = [(id, v)] := rfl

theorem set_cons (k : Int) (w : Item) (s : Store) (id : Int) (v : Item) :
    Store.set ((k, w) :: s) id v =
      if k = id then (k, v) :: s else (k, w) :: Store.set s id v := rfl

@[simp] theorem erase_nil (id : Int) : Store.erase [] id = [] := rfl

theorem erase_cons (k : Int) (w : Item) (s : Store) (id : Int) :
    Store.erase ((k, w) :: s) id =
      if k = id then Store.erase s id else (k, w) :: Store.erase s id := rfl

/-!  Helper lemmas about `maxOrZero` and `List.foldl max`. -/

theorem le_foldl_max : ∀ (l : List Int) (a : Int), a ≤ l.foldl max a
  | [], _ => le_refl _
  | b :: l, a => le_trans (le_max_left a b) (le_foldl_max l (max a b))

theorem foldl_max_of_mem :
    ∀ {l : List Int} {x : Int} (a : Int), x ∈ l → x ≤ l.foldl max a := by
  intro l
  induction l with
  | nil => intro x a hx; cases hx
  | cons b l ih =>
    intro x a hx
    rcases List.mem_cons.mp hx with h | h
    · subst h
      exact le_trans (le_max_right a x) (le_foldl_max l (max a x))
    · exact ih (max a b) h

theorem le_maxOrZero {l : List Int} {x : Int} (h : x ∈ l) : x ≤ maxOrZero l := by
  cases l with
  | nil => cases h
  | cons k ks =>
    rw [maxOrZero_cons]
    rcases List.mem_cons.mp h with h | h
    · subst h; exact le_foldl_max ks x
    · exact foldl_max_of_mem k h

theorem foldl_max_mem :
    ∀ (l : List Int) (a : Int), l.foldl max a = a ∨ l.foldl max a ∈ l := by
  intro l
  induction l with
  | nil => intro a; exact Or.inl rfl
  | cons b l ih =>
    intro a
    rcases ih (max a b) with h | h
    · rcases max_choice a b with hm | hm
      · exact Or.inl (by rw [List.foldl_cons, h, hm])
      · exact Or.inr (by rw [List.foldl_cons, h, hm]; exact List.mem_cons_self b l)
    · exact Or.inr (List.mem_cons_of_mem b h)

theorem maxOrZero_mem {l : List Int} (h : l ≠ []) : maxOrZero l ∈ l := by
  cases l with
  | nil => exact absurd rfl h
  | cons k ks =>
    rw [maxOrZero_cons]
    rcases foldl_max_mem ks k with h | h
    · rw [h]; exact List.mem_cons_self k ks
    · exact List.mem_cons_of_mem k h

theorem foldl_max_le {l : List Int} {a c : Int} (ha : a ≤ c)
    (hl : ∀ x ∈ l, x ≤ c) : l.foldl max a ≤ c := by
  induction l generalizing a with
  | nil => exact ha
  | cons b l ih =>
    exact ih (max_le ha (hl b (List.mem_cons_self b l)))
      (fun x hx => hl x (List.mem_cons_of_mem b hx))

theorem maxOrZero_append_single {l : List Int} {a : Int}
    (h : ∀ x ∈ l, x ≤ a) : maxOrZero (l ++ [a]) = a := by
  cases l with
  | nil => rfl
  | cons k ks =>
    rw [List.cons_append, maxOrZero_cons, List.foldl_append]
    simp only [List.foldl_cons, List.foldl_nil]
    exact max_eq_right
      (foldl_max_le (h k (List.mem_cons_self k ks))
        (fun x hx => h x (List.mem_cons_of_mem k hx)))

/-!  Helper lemmas about the store operations. -/

theorem containsKey_iff_mem_keys {s : Store} {id : Int} :
    Store.containsKey s id = true ↔ id ∈ Store.keys s := by
  induction s with
  | nil => simp
  | cons p s ih =>
    obtain ⟨k, v⟩ := p
    rw [containsKey_cons, keys_cons, List.mem_cons]
    by_cases hk : k = id
    · simp [hk]
    · simp only [hk, if_false, ih]
      constructor
      · exact fun h => Or.inr h
      · rintro (h | h)
        · exact absurd h.symm hk
        · exact h

theorem get?_eq_none_of_not_mem {s : Store} {id : Int}
    (h : id ∉ Store.keys s) : Store.get? s id = none := by
  induction s with
  | nil => rfl
  | cons p s ih =>
    obtain ⟨k, v⟩ := p
    rw [keys_cons, List.mem_cons] at h
    push_neg at h
    rw [get?_cons, if_neg (fun he => h.1 he.symm), ih h.2]

theorem get?_isSome_of_mem {s : Store} {id : Int}
    (h : id ∈ Store.keys s) : ∃ v, Store.get? s id = some v := by
  induction s with
  | nil => cases h
  | cons p s ih =>
    obtain ⟨k, v⟩ := p
    rw [get?_cons]
    by_cases hk : k = id
    · exact ⟨v, by rw [if_pos hk]⟩
    · rw [keys_cons, List.mem_cons] at h
      have hs : id ∈ Store.keys s := by
        rcases h with h | h
        · exact absurd h.symm hk
        · exact h
      obtain ⟨w, hw⟩ := ih hs
      exact ⟨w, by rw [if_neg hk, hw]⟩

theorem get?_set_self (s : Store) (id : Int) (v : Item) :
    Store.get? (Store.set s id v) id = some v := by
  induction s with
  | nil => simp [set_nil, get?_cons]
  | cons p s ih =>
    obtain ⟨k, w⟩ := p
    rw [set_cons]
    by_cases hk : k = id
    · rw [if_pos hk, get?_cons, if_pos hk]
    · rw [if_neg hk, get?_cons, if_neg hk, ih]

theorem get?_set_ne (s : Store) {id k : Int} (v : Item) (h : k ≠ id) :
    Store.get? (Store.set s id v) k = Store.get? s k := by
  induction s with
  | nil => rw [set_nil, get?_cons, if_neg (Ne.symm h), get?_nil]
  | cons p s ih =>
    obtain ⟨k', w⟩ := p
    rw [set_cons]
    by_cases hk : k' = id
    · rw [if_pos hk, get?_cons, get?_cons, if_neg (hk ▸ fun he => h (Eq.symm he)),
        if_neg (hk ▸ fun he => h (Eq.symm he))]
    · rw [if_neg hk, get?_cons, get?_cons]
      by_cases hkk : k' = k
      · rw [if_pos hkk, if_pos hkk]
      · rw [if_neg hkk, if_neg hkk, ih]

theorem get?_erase_self (s : Store) (id : Int) :
    Store.get? (Store.erase s id) id = none := by
  induction s with
  | nil => rfl
  | cons p s ih =>
    obtain ⟨k, w⟩ := p
    rw [erase_cons]
    by_cases hk : k = id
    · rw [if_pos hk, ih]
    · rw [if_neg hk, get?_cons, if_neg hk, ih]

theorem get?_erase_ne (s : Store) {id k : Int} (h : k ≠ id) :
    Store.get? (Store.erase s id) k = Store.get? s k := by
  induction s with
  | nil => rfl
  | cons p s ih =>
    obtain ⟨k', w⟩ := p
    rw [erase_cons]
    by_cases hk : k' = id
    · rw [if_pos hk, get?_cons, if_neg (hk ▸ fun he => h (Eq.symm he)), ih]
    · rw [if_neg hk, get?_cons, get?_cons]
      by_cases hkk : k' = k
      · rw [if_pos hkk, if_pos hkk]
      · rw [if_neg hkk, if_neg hkk, ih]

theorem keys_set_of_not_mem {s : Store} {id : Int} (v : Item)
    (h : id ∉ Store.keys s) :
    Store.keys (Store.set s id v) = Store.keys s ++ [id] := by
  induction s with
  | nil => rfl
  | cons p s ih =>
    obtain ⟨k, w⟩ := p
    rw [keys_cons, List.mem_cons] at h
    push_neg at h
    rw [set_cons, if_neg (fun he => h.1 he.symm), keys_cons, keys_cons,
      ih h.2, List.cons_append]

theorem mem_keys_set {s : Store} {id k : Int} {v : Item}
    (h : k ∈ Store.keys (Store.set s id v)) : k ∈ Store.keys s ∨ k = id := by
  induction s with
  | nil =>
    rw [set_nil, keys_cons, keys_nil, List.mem_singleton] at h
    exact Or.inr h
  | cons p s ih =>
    obtain ⟨k', w⟩ := p
    rw [set_cons] at h
    by_cases hk : k' = id
    · rw [if_pos hk, keys_cons, List.mem_cons] at h
      rcases h with h | h
      · exact Or.inr (h.trans hk)
      · exact Or.inl (by rw [keys_cons]; exact List.mem_cons_of_mem k' h)
    · rw [if_neg hk, keys_cons, List.mem_cons] at h
      rcases h with h | h
      · exact Or.inl (by rw [keys_cons, h]; exact List.mem_cons_self k' _)
      · rcases ih h with h' | h'
        · exact Or.inl (by rw [keys_cons]; exact List.mem_cons_of_mem k' h')
        · exact Or.inr h'

theorem keys_erase (s : Store) (id : Int) :
    Store.keys (Store.erase s id) =
      (Store.keys s).filter (fun x => x ≠ id) := by
  induction s with
  | nil => rfl
  | cons p s ih =>
    obtain ⟨k, w⟩ := p
    rw [erase_cons, keys_cons]
    by_cases hk : k = id
    · rw [if_pos hk, ih, List.filter_cons]
      simp [hk]
    · rw [if_neg hk, keys_cons, ih, List.filter_cons]
      simp [hk]

theorem mem_keys_erase {s : Store} {id k : Int}
    (h : k ∈ Store.keys (Store.erase s id)) : k ∈ Store.keys s := by
  rw [keys_erase] at h
  exact List.mem_of_mem_filter h

theorem new_id_not_mem (s : Store) :
    maxOrZero (Store.keys s) + 1 ∉ Store.keys s := by
  intro hmem
  have := le_maxOrZero hmem
  omega

theorem create_keys (s : Store) (it : Item) :
    Store.keys ((create_item s it).1)
      = Store.keys s ++ [maxOrZero (Store.keys s) + 1] :=
  keys_set_of_not_mem it (new_id_not_mem s)

theorem create_maxKeys (s : Store) (it : Item) :
    maxOrZero (Store.keys ((create_item s it).1))
      = maxOrZero (Store.keys s) + 1 := by
  rw [create_keys]
  exact maxOrZero_append_single
    (fun x hx => le_trans (le_maxOrZero hx) (by omega))

theorem maxOrZero_nonneg {l : List Int} (h : ∀ x ∈ l, 0 < x) :
    0 ≤ maxOrZero l := by
  by_cases hl : l = []
  · subst hl; simp
  · exact le_of_lt (h _ (maxOrZero_mem hl))

/-!  The ids assigned by a run of consecutive creates. -/

theorem ids_cons (m : Int) (n : Nat) :
    (m + 1) :: (List.range n).map (fun i : Nat => m + 1 + 1 + (i : Int)) =
      (List.range (n + 1)).map (fun i : Nat => m + 1 + (i : Int)) := by
  rw [List.range_succ_eq_map, List.map_cons, List.map_map]
  congr 1
  · push_cast; ring
  · congr 1
    funext i
    show m + 1 + 1 + (i : Int) = m + 1 + ((i + 1 : Nat) : Int)
    push_cast; ring

theorem runCreates_spec (its : List Item) : ∀ s : Store,
    (runCreates s its).2 =
      (List.range its.length).map
        (fun i : Nat => maxOrZero (Store.keys s) + 1 + (i : Int)) ∧
    Store.keys ((runCreates s its).1) =
      Store.keys s ++ (List.range its.length).map
        (fun i : Nat => maxOrZero (Store.keys s) + 1 + (i : Int)) := by
  induction its with
  | nil => intro s; simp [runCreates]
  | cons it its ih =>
    intro s
    obtain ⟨hids, hkeys⟩ := ih ((create_item s it).1)
    rw [create_maxKeys] at hids hkeys
    constructor
    · show (create_item s it).2.1 :: (runCreates (create_item s it).1 its).2 = _
      rw [hids]
      show (maxOrZero (Store.keys s) + 1) :: _ = _
      rw [ids_cons, List.length_cons]
    · show Store.keys ((runCreates (create_item s it).1 its).1) = _
      rw [hkeys, create_keys, List.append_assoc, List.singleton_append,
        ids_cons, List.length_cons]

theorem maxOrZero_range_map (M : Nat) :
    maxOrZero ((List.range M).map (fun i : Nat => (i : Int) + 1)) = (M : Int) := by
  cases M with
  | zero => simp
  | succ M =>
    rw [List.range_succ, List.map_append, List.map_singleton]
    have h : ∀ x ∈ (List.range M).map (fun i : Nat => (i : Int) + 1),
        x ≤ (M : Int) + 1 := by
      intro x hx
      simp only [List.mem_map, List.mem_range] at hx
      obtain ⟨i, hi, rfl⟩ := hx
      omega
    rw [maxOrZero_append_single h]
    push_cast; ring

/-!  Positivity of every key, preserved by every operation. -/

theorem applyOp_keys_pos {s : Store} (hs : ∀ k ∈ Store.keys s, 0 < k) (op : Op) :
    ∀ k ∈ Store.keys (applyOp s op), 0 < k := by
  cases op with
  | create it =>
    intro k hk
    rw [applyOp, create_keys] at hk
    rcases List.mem_append.mp hk with h | h
    · exact hs k h
    · rw [List.mem_singleton] at h
      subst h
      have := maxOrZero_nonneg hs
      omega
  | update id it =>
    intro k hk
    by_cases hc : Store.containsKey s id = false
    · rw [applyOp, update_item, if_pos hc] at hk
      exact hs k hk
    · rw [applyOp, update_item, if_neg hc] at hk
      rcases mem_keys_set hk with h | h
      · exact hs k h
      · subst h
        have hct : Store.containsKey s k = true := by
          revert hc; cases Store.containsKey s k <;> simp
        exact hs k (containsKey_iff_mem_keys.mp hct)
  | delete id =>
    intro k hk
    by_cases hc : Store.containsKey s id = false
    · rw [applyOp, delete_item, if_pos hc] at hk
      exact hs k hk
    · rw [applyOp, delete_item, if_neg hc] at hk
      exact hs k (mem_keys_erase hk)

theorem runOps_keys_pos : ∀ (ops : List Op) (s : Store),
    (∀ k ∈ Store.keys s, 0 < k) → ∀ k ∈ Store.keys (runOps s ops), 0 < k := by
  intro ops
  induction ops with
  | nil => intro s hs; exact hs
  | cons op ops ih =>
    intro s hs
    exact ih (applyOp s op) (applyOp_keys_pos hs op)

/-- Concrete items for witnesses. -/
def itemA : Item := ⟨"Laptop", some "High-performance laptop", 1299, some 130⟩

def itemB : Item := ⟨"Phone", none, 699, none⟩

def itemC : Item := ⟨"Smartphone", some "Latest model", 799, some 80⟩

/-- Concrete stores for witnesses. -/
def storeA : Store := [(1, itemA)]

def storeAB : Store := [(1, itemA), (3, itemB)]

/-- Claim C1: for every store state, `create_item` assigns the new id
`max(existing ids, default 0) + 1`, stores the submitted item under that id,
and returns the submitted item; the record stored under the new id equals
the input item. -/
theorem create_item_assigns_max_succ (s : Store) (it : Item) :
    (create_item s it).2.1 = maxOrZero (Store.keys s) + 1 ∧
    Store.get? ((create_item s it).1) ((create_item s it).2.1) = some it ∧
    (create_item s it).2.2 = it :=
  ⟨rfl, get?_set_self s _ it, rfl⟩

/-- Claim C2: for every store state and item, a create followed by a get of
the id assigned by that create returns a record equal to the item. -/
theorem create_then_get (s : Store) (it : Item) :
    (get_item ((create_item s it).1) ((create_item s it).2.1)).2 =
      Except.ok it := by
  show (get_item (Store.set s (maxOrZero (Store.keys s) + 1) it)
      (maxOrZero (Store.keys s) + 1)).2 = Except.ok it
  simp only [get_item, get?_set_self]

/-- Claim C3: get, update and delete on an id absent from the store each
return the 404 not-found error and leave the store unchanged, for every
store state. -/
theorem absent_id_yields_not_found (s : Store) (id : Int) (it : Item)
    (h : Store.containsKey s id = false) :
    get_item s id = (s, Except.error itemNotFound) ∧
    update_item s id it = (s, Except.error itemNotFound) ∧
    delete_item s id = (s, Except.error itemNotFound) ∧
    itemNotFound.status_code = 404 := by
  have hmem : id ∉ Store.keys s := by
    intro hm
    rw [containsKey_iff_mem_keys.mpr hm] at h
    simp at h
  refine ⟨?_, ?_, ?_, rfl⟩
  · simp only [get_item, get?_eq_none_of_not_mem hmem]
  · rw [update_item, if_pos h]
  · rw [delete_item, if_pos h]

theorem absent_id_yields_not_found_witness :
    get_item storeA 2 = (storeA, Except.error itemNotFound) ∧
    update_item storeA 2 itemB = (storeA, Except.error itemNotFound) ∧
    delete_item storeA 2 = (storeA, Except.error itemNotFound) ∧
    itemNotFound.status_code = 404 :=
  absent_id_yields_not_found storeA 2 itemB (by decide)

/-- Claim C4: starting from the empty store, N sequential creates with no
interleaved deletes assign the ids 1, 2, ..., N in that order. -/
theorem sequential_creates_assign_ids (its : List Item) :
    (runCreates [] its).2 =
      (List.range its.length).map (fun i : Nat => (i : Int) + 1) := by
  rw [(runCreates_spec its []).1]
  congr 1
  funext i
  simp only [keys_nil, maxOrZero_nil]
  omega

/-- Claim C5: update on a present id replaces the record wholesale, and a
subsequent get of that id returns exactly the new item. -/
theorem update_then_get (s : Store) (id : Int) (it : Item)
    (h : Store.containsKey s id = true) :
    update_item s id it = (Store.set s id it, Except.ok it) ∧
    (get_item ((update_item s id it).1) id).2 = Except.ok it := by
  have hne : ¬Store.containsKey s id = false := by rw [h]; simp
  have hu : update_item s id it = (Store.set s id it, Except.ok it) := by
    rw [update_item, if_neg hne]
  refine ⟨hu, ?_⟩
  rw [hu]
  show (get_item (Store.set s id it) id).2 = Except.ok it
  simp only [get_item, get?_set_self]

theorem update_then_get_witness :
    update_item storeA 1 itemC = (Store.set storeA 1 itemC, Except.ok itemC) ∧
    (get_item ((update_item storeA 1 itemC).1) 1).2 = Except.ok itemC :=
  update_then_get storeA 1 itemC (by decide)

/-- Claim C6 counterexample: in the store mapping 1 to itemA and 3 to itemB
the highest id is 3; deleting id 3 succeeds, but the create that follows
assigns id 2, not 3, so the deleted highest id is not reused for this
non-empty store. -/
theorem delete_highest_not_reused :
    maxOrZero (Store.keys storeAB) = 3 ∧
    (delete_item storeAB 3).2 = Except.ok "Item deleted successfully" ∧
    (create_item ((delete_item storeAB 3).1) itemC).2.1 = 2 := by
  refine ⟨by decide, rfl, by decide⟩

/-- Claim C6 amended: if the store was produced by N ≥ 1 sequential creates
from the empty store (so its ids are exactly 1..N and the highest id is N),
deleting the highest id and then performing a create assigns that same id
again. -/
theorem delete_highest_then_create_reuses (its : List Item) (it : Item)
    (h : its ≠ []) :
    maxOrZero (Store.keys ((runCreates [] its).1)) = (its.length : Int) ∧
    (delete_item ((runCreates [] its).1) (its.length : Int)).2 =
      Except.ok "Item deleted successfully" ∧
    (create_item ((delete_item ((runCreates [] its).1) (its.length : Int)).1)
        it).2.1 = (its.length : Int) := by
  have hlen : 0 < its.length := List.length_pos.mpr h
  have hkeys : Store.keys ((runCreates [] its).1) =
      (List.range its.length).map (fun i : Nat => (i : Int) + 1) := by
    rw [(runCreates_spec its []).2]
    simp only [keys_nil, maxOrZero_nil, List.nil_append]
    congr 1
    funext i
    omega
  have hmax : maxOrZero (Store.keys ((runCreates [] its).1)) =
      (its.length : Int) := by
    rw [hkeys]; exact maxOrZero_range_map its.length
  have hNmem : (its.length : Int) ∈ Store.keys ((runCreates [] its).1) := by
    rw [hkeys]
    refine List.mem_map.mpr ⟨its.length - 1, List.mem_range.mpr (by omega), ?_⟩
    show ((its.length - 1 : Nat) : Int) + 1 = (its.length : Int)
    omega
  have hct : Store.containsKey ((runCreates [] its).1) (its.length : Int) = true :=
    containsKey_iff_mem_keys.mpr hNmem
  have hne : ¬Store.containsKey ((runCreates [] its).1) (its.length : Int)
      = false := by rw [hct]; simp
  have hdel : delete_item ((runCreates [] its).1) (its.length : Int) =
      (Store.erase ((runCreates [] its).1) (its.length : Int),
        Except.ok "Item deleted successfully") := by
    rw [delete_item, if_neg hne]
  obtain ⟨M, hM⟩ : ∃ M, its.length = M + 1 := ⟨its.length - 1, by omega⟩
  have hkeys2 : Store.keys
      (Store.erase ((runCreates [] its).1) (its.length : Int)) =
      (List.range M).map (fun i : Nat => (i : Int) + 1) := by
    rw [keys_erase, hkeys, hM, List.range_succ, List.map_append,
      List.map_singleton, List.filter_append]
    have h1 : ((List.range M).map (fun i : Nat => (i : Int) + 1)).filter
        (fun x => x ≠ ((M + 1 : Nat) : Int)) =
        (List.range M).map (fun i : Nat => (i : Int) + 1) := by
      apply List.filter_eq_self.mpr
      intro a ha
      simp only [List.mem_map, List.mem_range] at ha
      obtain ⟨i, hi, rfl⟩ := ha
      simp only [ne_eq, decide_eq_true_eq]
      omega
    have h2 : [((M : Int) + 1)].filter (fun x => x ≠ ((M + 1 : Nat) : Int))
        = [] := by
      simp only [List.filter_cons, List.filter_nil, ne_eq,
        decide_eq_true_eq]
      rw [if_neg]
      intro hcontra
      apply hcontra
      omega
    rw [h1, h2, List.append_nil]
  have hmax2 : maxOrZero (Store.keys
      (Store.erase ((runCreates [] its).1) (its.length : Int))) = (M : Int) := by
    rw [hkeys2]; exact maxOrZero_range_map M
  refine ⟨hmax, by rw [hdel], ?_⟩
  rw [hdel]
  show maxOrZero (Store.keys
      (Store.erase ((runCreates [] its).1) (its.length : Int))) + 1
    = (its.length : Int)
  rw [hmax2, hM]
  omega

theorem delete_highest_then_create_reuses_witness :
    maxOrZero (Store.keys ((runCreates [] [itemA]).1)) = ([itemA].length : Int) ∧
    (delete_item ((runCreates [] [itemA]).1) ([itemA].length : Int)).2 =
      Except.ok "Item deleted successfully" ∧
    (create_item ((delete_item ((runCreates [] [itemA]).1)
        ([itemA].length : Int)).1) itemB).2.1 = ([itemA].length : Int) :=
  delete_highest_then_create_reuses [itemA] itemB (by decide)

/-- Claim C7: delete on a present id returns the confirmation message, and
a subsequent get of that id yields the 404 not-found error. -/
theorem delete_then_get (s : Store) (id : Int)
    (h : Store.containsKey s id = true) :
    delete_item s id =
      (Store.erase s id, Except.ok "Item deleted successfully") ∧
    (get_item ((delete_item s id).1) id).2 = Except.error itemNotFound ∧
    itemNotFound.status_code = 404 := by
  have hne : ¬Store.containsKey s id = false := by rw [h]; simp
  have hdel : delete_item s id =
      (Store.erase s id, Except.ok "Item deleted successfully") := by
    rw [delete_item, if_neg hne]
  refine ⟨hdel, ?_, rfl⟩
  rw [hdel]
  show (get_item (Store.erase s id) id).2 = Except.error itemNotFound
  simp only [get_item, get?_erase_self]

theorem delete_then_get_witness :
    delete_item storeA 1 =
      (Store.erase storeA 1, Except.ok "Item deleted successfully") ∧
    (get_item ((delete_item storeA 1).1) 1).2 = Except.error itemNotFound ∧
    itemNotFound.status_code = 404 :=
  delete_then_get storeA 1 (by decide)

/-- Claim C8: the health check always reports status "healthy" and the
non-empty version string "1.0.0", and reports as environment the value of
the ENVIRONMENT variable, or "production" when it is unset. -/
theorem health_check_spec (env : Option String) :
    (health_check env).status = "healthy" ∧
    (health_check env).version ≠ "" ∧
    (health_check env).environment = env.getD "production" := by
  refine ⟨rfl, ?_, rfl⟩
  show ("1.0.0" : String) ≠ ""
  decide

/-- Claim C9: every mutating operation touches at most one store entry:
create preserves every previously existing entry, update preserves every
entry other than the updated id, and delete preserves every entry other
than the deleted id. -/
theorem mutators_touch_one_entry :
    (∀ (s : Store) (it : Item) (k : Int), k ∈ Store.keys s →
      Store.get? ((create_item s it).1) k = Store.get? s k) ∧
    (∀ (s : Store) (id : Int) (it : Item) (k : Int), k ≠ id →
      Store.get? ((update_item s id it).1) k = Store.get? s k) ∧
    (∀ (s : Store) (id : Int) (k : Int), k ≠ id →
      Store.get? ((delete_item s id).1) k = Store.get? s k) := by
  refine ⟨?_, ?_, ?_⟩
  · intro s it k hk
    have hkne : k ≠ maxOrZero (Store.keys s) + 1 := by
      have := le_maxOrZero hk
      omega
    show Store.get? (Store.set s (maxOrZero (Store.keys s) + 1) it) k
      = Store.get? s k
    exact get?_set_ne s it hkne
  · intro s id it k hk
    by_cases hc : Store.containsKey s id = false
    · rw [update_item, if_pos hc]
    · rw [update_item, if_neg hc]
      exact get?_set_ne s it hk
  · intro s id k hk
    by_cases hc : Store.containsKey s id = false
    · rw [delete_item, if_pos hc]
    · rw [delete_item, if_neg hc]
      exact get?_erase_ne s hk

theorem mutators_touch_one_entry_witness :
    Store.get? ((create_item storeA itemB).1) 1 = Store.get? storeA 1 ∧
    Store.get? ((update_item storeAB 3 itemC).1) 1 = Store.get? storeAB 1 ∧
    Store.get? ((delete_item storeAB 3).1) 1 = Store.get? storeAB 1 :=
  ⟨mutators_touch_one_entry.1 storeA itemB 1 (by decide),
   mutators_touch_one_entry.2.1 storeAB 3 itemC 1 (by decide),
   mutators_touch_one_entry.2.2 storeAB 3 1 (by decide)⟩

/-- Claim C10: in every store state reachable from the empty store by any
sequence of create, update and delete requests, every id present in the
store is a strictly positive integer. -/
theorem reachable_ids_positive (ops : List Op) :
    ∀ k ∈ Store.keys (runOps [] ops), 0 < k :=
  runOps_keys_pos ops [] (by intro k hk; simp at hk)

theorem reachable_ids_positive_witness :
    (1 : Int) ∈ Store.keys (runOps [] [Op.create itemA]) ∧ (0 : Int) < 1 :=
  ⟨by decide, reachable_ids_positive [Op.create itemA] 1 (by decide)⟩
